import Mathlib

/-!
Verification of the merge-and-save subsystem of the cctv_label repository.

The embedding below translates, from the repository sources:

* `api/save-analytics.js` (the dataset-aware version): `mergeData`, `saveData`
  (the optimistic-concurrency retry loop) and the relevant slice of the HTTP
  `handler` (dataset normalisation, input validation, status codes);
* `api/gcs-storage.js`: `getDataFolder` and the outcome alphabet of
  `saveToGCS` (committed / generation-conflict / other error);
* `api/load-analytics.js` and the excel-export endpoint: their dataset
  normalisations (the load handler coerces like the save handler; only the
  excel exporter recognises `new_guntur`);
* `src/utils/saveData.ts`: the client save coordinator (queue, debounce
  timer, high-water mark, single-flight flush) as a small labelled transition
  system.

Records are JavaScript objects keyed by a `filename` string; the merge logic
reads only `filename` and rewrites only the positional field `'S.No'`, and
copies everything else verbatim, so a record is modelled as its filename, its
optional `'S.No'` field, and an opaque payload `val : α` standing for all
remaining fields.  Store and network effects are modelled by explicit oracles
(one result per call) and an execution log, since the JavaScript performs
them through awaited calls whose outcomes the code only inspects as values.
-/

set_option autoImplicit false

namespace CctvLabel

universe u

variable {α : Type u}

/-- A record of the persisted Document: the `filename` key, the optional
positional field `'S.No'`, and an opaque payload standing for every other
field of the JavaScript object. -/
structure Rec (α : Type u) where
  filename : String
  sno : Option Nat
  val : α
deriving DecidableEq, Repr

/-- `{...item, 'S.No': n}`: copy a record, setting its `'S.No'` field. -/
def setSno (r : Rec α) (n : Nat) : Rec α := { r with sno := some n }

/-- A JavaScript `Map` from filename keys to records, as its ordered list of
entries (JS `Map` preserves insertion order). -/
abbrev JMap (α : Type u) := List (String × Rec α)

/-- JS `Map.prototype.set`: update in place if the key is present, else
append a fresh entry. -/
def jsSet (m : JMap α) (k : String) (v : Rec α) : JMap α :=
  if m.any (fun p => p.1 == k) then
    m.map (fun p => if p.1 == k then (k, v) else p)
  else m ++ [(k, v)]

/-- `new Map(pairs)`: successive `set`s starting from the empty map. -/
def jsMapFromList (l : List (String × Rec α)) : JMap α :=
  l.foldl (fun m p => jsSet m p.1 p.2) []

/-- JS `Map.prototype.delete`: remove the entry with the given key. -/
def jsDelete (m : JMap α) (k : String) : JMap α :=
  m.eraseP (fun p => p.1 == k)

/-- The `existingData.map(...)` walk of `mergeData`: each existing item whose
filename has an entry in `newDataMap` is replaced by that entry, which is
deleted from the map; the final map holds the genuinely new items.  Returns
(the updated walk, the remaining map). -/
def mergePass (m : JMap α) : List (Rec α) → List (Rec α) × JMap α
  | [] => ([], m)
  | x :: xs =>
    match List.lookup x.filename m with
    | some u =>
      let r := mergePass (jsDelete m x.filename) xs
      (u :: r.1, r.2)
    | none =>
      let r := mergePass m xs
      (x :: r.1, r.2)

/-- `merged.map((item, index) => ({...item, 'S.No': index + 1}))`, written
with an explicit running index `n` (the call site uses `n = 1`). -/
def enumSnoFrom (n : Nat) : List (Rec α) → List (Rec α)
  | [] => []
  | r :: rs => setSno r n :: enumSnoFrom (n + 1) rs

/-- Recompute `'S.No'` as the 1-based position. -/
def enumSno (l : List (Rec α)) : List (Rec α) := enumSnoFrom 1 l

/-- `mergeData(existingData, newData)` of `api/save-analytics.js`.  The
null / not-an-array guards of the JavaScript are unrepresentable here (a
`List` is always an array); the `newData.length === 0` early return is the
`isEmpty` branch. -/
def mergeData (existingData newData : List (Rec α)) : List (Rec α) :=
  if newData.isEmpty then existingData
  else
    let newDataMap := jsMapFromList (newData.map (fun item => (item.filename, item)))
    let r := mergePass newDataMap existingData
    enumSno (r.1 ++ r.2.map Prod.snd)

/-- The replacement applied to one pre-existing item: the incoming record
with the same filename if there is one (first match), else the item itself. -/
def subst (inc : List (Rec α)) (x : Rec α) : Rec α :=
  (inc.find? (fun r => x.filename == r.filename)).getD x

/-- The incoming records whose keys are genuinely new. -/
def newOnes (ex inc : List (Rec α)) : List (Rec α) :=
  inc.filter (fun r => decide (r.filename ∉ ex.map Rec.filename))

/-- Closed form of `mergeData` on distinct-key inputs, proved equal to it in
`mergeData_eq_view`: replace matched records in place, append the genuinely
new ones, renumber. -/
def mergeView (ex inc : List (Rec α)) : List (Rec α) :=
  enumSno (ex.map (subst inc) ++ newOnes ex inc)

/-! ## The server merge-and-commit loop (`saveData` of `api/save-analytics.js`) -/

/-- Outcome of one `saveToGCS` call as `saveData` inspects it: `true`
(committed), `{conflict: true}` (generation precondition failed, HTTP 412),
or `false` (any other storage error). -/
inductive PutRes where
  | committed
  | conflict
  | otherError
deriving DecidableEq, Repr

/-- Execution log of one `saveData` call: how many `loadData` reads happened,
the backoff delays (in ms, in order), and every attempted `saveToGCS` write
with its payload, its `ifGenerationMatch` precondition (`none` = write
unconditionally) and its outcome. -/
structure SaveLog (α : Type u) where
  reads : Nat
  delays : List Nat
  commits : List (List (Rec α) × Option Nat × PutRes)
deriving DecidableEq, Repr

/-- Read oracle: the result of the n-th `loadData` call.  `none` models
`loadData` returning null (no data in GCS nor in the file fallback);
`some (doc, gen)` models a loaded document with its generation, `gen = none`
standing for the generation-less file-system fallback. -/
abbrev ReadOracle (α : Type u) := Nat → Option (List (Rec α) × Option Nat)

/-- Put oracle: the outcome of the n-th `saveToGCS` call, chosen by the
environment (concurrent writers, storage availability). -/
abbrev PutOracle := Nat → PutRes

/-- The read-and-merge prefix of one attempt: on a partial update with a
non-empty input, call `loadData` (recording the read); if it yields a
non-empty document, merge into it and keep its generation for the
conditional write, otherwise (no data anywhere, or an existing empty array)
use the input as-is with no generation precondition.  Returns
`(dataToSave, expectedGeneration, log)`. -/
def readStage (data : List (Rec α)) (isPartialUpdate : Bool)
    (readRes : ReadOracle α) (log : SaveLog α) :
    List (Rec α) × Option Nat × SaveLog α :=
  if isPartialUpdate && !data.isEmpty then
    match readRes log.reads with
    | some (doc, gen) =>
      if !doc.isEmpty then (mergeData doc data, gen, { log with reads := log.reads + 1 })
      else (data, none, { log with reads := log.reads + 1 })
    | none => (data, none, { log with reads := log.reads + 1 })
  else (data, none, log)

/-- `saveData`'s `for (let attempt = 1; attempt <= maxRetries; ...)` loop,
by recursion on the remaining iterations (`fuel`, equal to
`maxRetries - attempt + 1` at every call).  One attempt: `readStage`, then
the empty-payload validation guard, then the write — returning true on
commit, retrying after a `100 * attempt` ms backoff on conflict while
attempts remain, and returning false otherwise (the file-system fallback
after the `break` is dead code in the source). -/
def saveGo (data : List (Rec α)) (isPartialUpdate : Bool)
    (readRes : ReadOracle α) (putRes : PutOracle) (maxRetries : Nat) :
    Nat → Nat → SaveLog α → Bool × SaveLog α
  | _, 0, log => (false, log)
  | attempt, fuel + 1, log =>
    match readStage data isPartialUpdate readRes log with
    | (dataToSave, expectedGeneration, log1) =>
      if dataToSave.isEmpty then (false, log1)
      else
        let pres := putRes log1.commits.length
        let log2 := { log1 with
          commits := log1.commits ++ [(dataToSave, expectedGeneration, pres)] }
        match pres with
        | .committed => (true, log2)
        | .conflict =>
          if attempt < maxRetries then
            saveGo data isPartialUpdate readRes putRes maxRetries (attempt + 1) fuel
              { log2 with delays := log2.delays ++ [100 * attempt] }
          else (false, log2)
        | .otherError => (false, log2)

/-- `saveData(data, isPartialUpdate, dataset, maxRetries)`: run the retry
loop from attempt 1 with an empty log.  (The source defaults `maxRetries`
to 3; claims instantiate it there.) -/
def saveData (data : List (Rec α)) (isPartialUpdate : Bool)
    (readRes : ReadOracle α) (putRes : PutOracle) (maxRetries : Nat) :
    Bool × SaveLog α :=
  saveGo data isPartialUpdate readRes putRes maxRetries 1 maxRetries ⟨0, [], []⟩

/-- The committed state of one dataset's blob: document and generation. -/
abbrev Store (α : Type u) := Option (List (Rec α) × Nat)

/-- GCS object writes are atomic at whole-object granularity: replay a
call's write attempts against a store — only a committed write changes it. -/
def applyCommits (s : Store α) (cs : List (List (Rec α) × Option Nat × PutRes)) : Store α :=
  cs.foldl
    (fun st c =>
      match c.2.2 with
      | .committed => some (c.1, (match st with | some (_, g) => g + 1 | none => 1))
      | _ => st)
    s

/-! ## The HTTP boundary (dataset normalisation, guards, status codes) -/

/-- `api/save-analytics.js`: `req.query?.dataset === 'ptz' ? 'ptz' : 'existing'`. -/
def saveDataset (q : Option String) : String :=
  if q = some "ptz" then "ptz" else "existing"

/-- `api/load-analytics.js` line 21: the load handler normalises the dataset
exactly like the save handler — `req.query?.dataset === 'ptz' ? 'ptz' :
'existing'` — so it too coerces `new_guntur` to `existing`. -/
def loadDataset (q : Option String) : String :=
  if q = some "ptz" then "ptz" else "existing"

/-- The excel-export endpoint (the XLSX handler, the only endpoint whose
dataset normalisation recognises `new_guntur`):
`dataset === 'ptz' ? 'ptz' : dataset === 'new_guntur' ? 'new_guntur' :
'existing'`. -/
def exportDataset (q : Option String) : String :=
  if q = some "ptz" then "ptz"
  else if q = some "new_guntur" then "new_guntur"
  else "existing"

/-- `getDataFolder` of `api/gcs-storage.js`: the dataset-specific GCS folder. -/
def getDataFolder (dataset : String) : String :=
  if dataset = "ptz" then "analytics-data-ptz"
  else if dataset = "new_guntur" then "analytics-data-new-guntur"
  else "analytics-data"

/-- The request-body shapes the save handler accepts: a bare array (old
format) or `{isPartialUpdate, data}` (new format). -/
inductive ReqBody (α : Type u) where
  | arr (d : List (Rec α))
  | obj (isPartialUpdate : Bool) (d : List (Rec α))

/-- The save handler slice: dataset normalisation, format dispatch (a bare
array uses the `length < 100` heuristic for `isPartialUpdate`), the
empty-array guard (status 400, before any store access), and the `saveData`
call (200 on success, 500 on failure).  Returns the HTTP status, the GCS
folder the write is addressed to, and the execution log. -/
def handler (body : ReqBody α) (datasetQ : Option String)
    (readRes : ReadOracle α) (putRes : PutOracle) : Nat × String × SaveLog α :=
  let dataset := saveDataset datasetQ
  let folder := getDataFolder dataset
  let pd : List (Rec α) × Bool :=
    match body with
    | .obj p d => (d, p)
    | .arr d => (d, decide (d.length < 100))
  if pd.1.isEmpty then (400, folder, ⟨0, [], []⟩)
  else
    let r := saveData pd.1 pd.2 readRes putRes 3
    (if r.1 then 200 else 500, folder, r.2)

/-! ## The client save coordinator (`src/utils/saveData.ts`)

Modelled as a labelled transition system over the module-level mutable
state.  Queued images are abstracted to their `filename` keys (the
coordinator reads nothing else of them: coalescing keys the `Map` by
`filename`, and the high-water mark counts images).  `inFlight` holds the
payloads of outstanding network calls (the code keeps at most one — that is
the single-flight property proved below, so the model lets the list grow);
`started` is the history of all flush payloads ever sent, recording
delivery. -/

/-- The module-level state of `saveData.ts`: `saveQueue`, the pending
debounce timer (as its absolute deadline in ms), the `isSaving` flag, plus
the outstanding and historical flush payloads. -/
structure CState where
  saveQueue : List (List String)
  saveTimeout : Option Nat
  isSaving : Bool
  inFlight : List (List String)
  started : List (List String)
deriving DecidableEq, Repr

/-- Initial module state. -/
def initClient : CState := ⟨[], none, false, [], []⟩

/-- `imageMap.set(img.filename, img)` at filename granularity: first
occurrence keeps its position, later ones only refresh the value. -/
def insertName (acc : List String) (k : String) : List String :=
  if acc.contains k then acc else acc ++ [k]

/-- The coalescing loop of `processSaveQueue`: unique filenames of all
queued images, in first-insertion order. -/
def coalesce (qs : List (List String)) : List String :=
  qs.flatten.foldl insertName []

/-- The synchronous prefix of `processSaveQueue` up to the `await fetch`:
early-return if a flush is in flight or the queue is empty; otherwise take
the queue, clear the timer handle, set `isSaving`, and issue the coalesced
batch as a network call. -/
def processStep (s : CState) : CState :=
  if s.isSaving || s.saveQueue.isEmpty then s
  else
    { saveQueue := []
      saveTimeout := none
      isSaving := true
      inFlight := s.inFlight ++ [coalesce s.saveQueue]
      started := s.started ++ [coalesce s.saveQueue] }

/-- The partial-update enqueue path of the client `saveToGCS` (push the
request, count the queued images, clear any pending timer, then either flush
immediately at the high-water mark or re-arm the debounce timer). -/
def enqueueStep (s : CState) (batch : List String) (now : Nat) : CState :=
  let s' : CState := { s with saveQueue := s.saveQueue ++ [batch], saveTimeout := none }
  let totalImagesInQueue := (s'.saveQueue.map List.length).sum
  if 10 ≤ totalImagesInQueue then processStep s'
  else { s' with saveTimeout := some (now + 500) }

/-- The debounce timer firing: the scheduled `processSaveQueue` runs (the
handle is spent). -/
def fireStep (s : CState) : CState :=
  processStep { s with saveTimeout := none }

/-- The `finally` block of `processSaveQueue`, when the oldest outstanding
network call settles (either way): clear `isSaving`, and if requests
accumulated meanwhile, re-arm the debounce timer. -/
def doneStep (s : CState) (now : Nat) : CState :=
  match s.inFlight with
  | [] => s
  | _ :: rest =>
    let s' : CState := { s with isSaving := false, inFlight := rest }
    if s'.saveQueue.isEmpty then s' else { s' with saveTimeout := some (now + 500) }

/-- Events of the client coordinator. -/
inductive Ev where
  | enq (batch : List String) (now : Nat)
  | fire (now : Nat)
  | done (now : Nat)

/-- The filenames an event enqueues. -/
def evNames : Ev → List String
  | .enq b _ => b
  | _ => []

/-- All filenames enqueued along a trace. -/
def traceNames (tr : List Ev) : List String := (tr.map evNames).flatten

/-- The client coordinator's transition relation: an enqueue may happen at
any time; the timer fires only if armed with that deadline; a network call
settles only while one is in flight. -/
inductive ClientStep : CState → Ev → CState → Prop where
  | enq (s : CState) (b : List String) (t : Nat) : ClientStep s (.enq b t) (enqueueStep s b t)
  | fire (s : CState) (t : Nat) (h : s.saveTimeout = some t) : ClientStep s (.fire t) (fireStep s)
  | done (s : CState) (t : Nat) (h : s.isSaving = true) : ClientStep s (.done t) (doneStep s t)

/-- Reachability from the initial module state, remembering the trace. -/
inductive Reach : List Ev → CState → Prop where
  | init : Reach [] initClient
  | step {tr : List Ev} {s : CState} {e : Ev} {s' : CState} :
      Reach tr s → ClientStep s e s' → Reach (tr ++ [e]) s'

/-! ## Lemmas: records and renumbering -/

theorem setSno_filename (r : Rec α) (n : Nat) : (setSno r n).filename = r.filename := rfl

theorem setSno_setSno (r : Rec α) (n : Nat) : setSno (setSno r n) n = setSno r n := rfl

theorem length_enumSnoFrom (n : Nat) (l : List (Rec α)) :
    (enumSnoFrom n l).length = l.length := by
  induction l generalizing n with
  | nil => rfl
  | cons r rs ih => simp [enumSnoFrom, ih]

theorem length_enumSno (l : List (Rec α)) : (enumSno l).length = l.length :=
  length_enumSnoFrom 1 l

theorem getElem_enumSnoFrom (n : Nat) (l : List (Rec α)) (i : Nat)
    (h : i < l.length) (hb : i < (enumSnoFrom n l).length) :
    (enumSnoFrom n l)[i] = setSno l[i] (n + i) := by
  induction l generalizing n i with
  | nil => simp at h
  | cons r rs ih =>
    cases i with
    | zero => simp [enumSnoFrom]
    | succ j =>
      have hj : j < rs.length := by simpa using h
      have hjb : j < (enumSnoFrom (n + 1) rs).length := by rwa [length_enumSnoFrom]
      simp only [enumSnoFrom, List.getElem_cons_succ]
      rw [ih (n + 1) j hj hjb]
      congr 1
      omega

theorem getElem_enumSno (l : List (Rec α)) (i : Nat) (h : i < l.length)
    (hb : i < (enumSno l).length) :
    (enumSno l)[i] = setSno l[i] (i + 1) := by
  unfold enumSno at hb ⊢
  rw [getElem_enumSnoFrom 1 l i h hb]
  congr 1
  omega

theorem map_filename_enumSnoFrom (n : Nat) (l : List (Rec α)) :
    (enumSnoFrom n l).map Rec.filename = l.map Rec.filename := by
  induction l generalizing n with
  | nil => rfl
  | cons r rs ih => simp [enumSnoFrom, setSno_filename, ih]

theorem map_filename_enumSno (l : List (Rec α)) :
    (enumSno l).map Rec.filename = l.map Rec.filename :=
  map_filename_enumSnoFrom 1 l

/-! ## Lemmas: `subst` -/

theorem subst_filename (inc : List (Rec α)) (x : Rec α) :
    (subst inc x).filename = x.filename := by
  unfold subst
  cases h : inc.find? (fun r => x.filename == r.filename) with
  | none => rfl
  | some u =>
    have hx : (x.filename == u.filename) = true := by
      have h2 := List.find?_some h
      exact h2
    simp only [Option.getD_some]
    exact (beq_iff_eq.mp hx).symm

theorem find?_self_of_nodup {inc : List (Rec α)} (hinc : (inc.map Rec.filename).Nodup)
    {r : Rec α} (hr : r ∈ inc) :
    inc.find? (fun r' => r.filename == r'.filename) = some r := by
  induction inc with
  | nil => simp at hr
  | cons a t ih =>
    simp only [List.map_cons, List.nodup_cons] at hinc
    rcases List.mem_cons.mp hr with rfl | hrt
    · simp [List.find?]
    · have hne : (r.filename == a.filename) = false := by
        rw [beq_eq_false_iff_ne]
        intro he
        exact hinc.1 (he ▸ List.mem_map_of_mem Rec.filename hrt)
      simp [List.find?, hne, ih hinc.2 hrt]

theorem subst_self_of_mem {inc : List (Rec α)} (hinc : (inc.map Rec.filename).Nodup)
    {r : Rec α} (hr : r ∈ inc) : subst inc r = r := by
  unfold subst
  rw [find?_self_of_nodup hinc hr]
  rfl

theorem subst_subst (inc : List (Rec α)) (x : Rec α) :
    subst inc (subst inc x) = subst inc x := by
  unfold subst
  cases h : inc.find? (fun r => x.filename == r.filename) with
  | none => simp [h]
  | some u =>
    have hx : (x.filename == u.filename) = true := by
      have h2 := List.find?_some h
      exact h2
    have hux : x.filename = u.filename := beq_iff_eq.mp hx
    simp only [h, Option.getD_some]
    rw [← hux, h]
    rfl

theorem subst_setSno (inc : List (Rec α)) (b : Rec α) (n : Nat) :
    subst inc (setSno b n) =
      (inc.find? (fun r => b.filename == r.filename)).getD (setSno b n) := rfl

/-! ## Lemmas: the JS `Map` embedding -/

theorem jsSet_of_notMem (m : JMap α) (k : String) (v : Rec α)
    (h : ∀ p ∈ m, p.1 ≠ k) : jsSet m k v = m ++ [(k, v)] := by
  unfold jsSet
  have hany : m.any (fun p => p.1 == k) = false := by
    simp only [List.any_eq_false]
    intro p hp
    simpa using h p hp
  simp [hany]

theorem jsMapFromList_aux (l acc : JMap α) (hnd : (l.map Prod.fst).Nodup)
    (hdis : ∀ k ∈ l.map Prod.fst, ∀ p ∈ acc, p.1 ≠ k) :
    l.foldl (fun m p => jsSet m p.1 p.2) acc = acc ++ l := by
  induction l generalizing acc with
  | nil => simp
  | cons x t ih =>
    simp only [List.map_cons, List.nodup_cons] at hnd
    simp only [List.foldl_cons]
    rw [jsSet_of_notMem _ _ _ (hdis x.1 (by simp))]
    rw [ih (acc ++ [x]) hnd.2]
    · simp
    · intro k hk p hp
      rcases List.mem_append.mp hp with hpacc | hpx
      · exact hdis k (by simp [hk]) p hpacc
      · have : p = x := by simpa using hpx
        subst this
        intro he
        exact hnd.1 (he ▸ hk)

theorem jsMapFromList_eq_self {l : JMap α} (h : (l.map Prod.fst).Nodup) :
    jsMapFromList l = l := by
  have := jsMapFromList_aux l [] h (by simp)
  simpa [jsMapFromList] using this

/-! ## Lemmas: `lookup`, `jsDelete` -/

theorem lookup_eq_none_forall {m : JMap α} {k : String}
    (h : List.lookup k m = none) : ∀ p ∈ m, p.1 ≠ k := by
  induction m with
  | nil => simp
  | cons a t ih =>
    intro p hp
    rcases List.mem_cons.mp hp with rfl | hpt
    · intro he
      rw [List.lookup_cons] at h
      simp [he] at h
    · have ht : List.lookup k t = none := by
        rw [List.lookup_cons] at h
        cases hka : k == a.1 with
        | true => simp [hka] at h
        | false => simpa [hka] using h
      exact ih ht p hpt

theorem lookup_jsDelete (m : JMap α) (k k' : String) (hne : k' ≠ k) :
    List.lookup k' (jsDelete m k) = List.lookup k' m := by
  induction m with
  | nil => rfl
  | cons a t ih =>
    unfold jsDelete at *
    rw [List.eraseP_cons]
    cases hak : a.1 == k with
    | true =>
      have hk'a : (k' == a.1) = false := by
        rw [beq_eq_false_iff_ne]
        intro he
        exact hne (he.trans (beq_iff_eq.mp hak))
      simp only [cond_true]
      rw [List.lookup_cons]
      simp [hk'a]
    | false =>
      simp only [cond_false]
      rw [List.lookup_cons, List.lookup_cons]
      cases hka : k' == a.1 with
      | true => simp
      | false => simpa using ih

theorem jsDelete_eq_filter {m : JMap α} (hm : (m.map Prod.fst).Nodup) (k : String) :
    jsDelete m k = m.filter (fun p => !(p.1 == k)) := by
  induction m with
  | nil => rfl
  | cons a t ih =>
    simp only [List.map_cons, List.nodup_cons] at hm
    unfold jsDelete at *
    rw [List.eraseP_cons]
    cases hak : a.1 == k with
    | true =>
      have hk : k = a.1 := (beq_iff_eq.mp hak).symm
      have hall : ∀ p ∈ t, (!(p.1 == k)) = true := by
        intro p hp
        cases hpk : p.1 == k with
        | true =>
          have h1 : p.1 ∈ t.map Prod.fst := List.mem_map_of_mem Prod.fst hp
          rw [beq_iff_eq.mp hpk, hk] at h1
          exact absurd h1 hm.1
        | false => rfl
      simp [List.filter_cons, hak, List.filter_eq_self.mpr hall]
    | false =>
      simp [List.filter_cons, hak, ih hm.2]

/-! ## Lemmas: `mergePass` and the closed form of `mergeData` -/

theorem mergePass_fst_length (m : JMap α) (ex : List (Rec α)) :
    (mergePass m ex).1.length = ex.length := by
  induction ex generalizing m with
  | nil => rfl
  | cons x xs ih =>
    cases h : List.lookup x.filename m with
    | some u => simp [mergePass, h, ih]
    | none => simp [mergePass, h, ih]

theorem mergePass_fst {ex : List (Rec α)} (hex : (ex.map Rec.filename).Nodup) (m : JMap α) :
    (mergePass m ex).1 = ex.map (fun x => (List.lookup x.filename m).getD x) := by
  induction ex generalizing m with
  | nil => rfl
  | cons x xs ih =>
    simp only [List.map_cons, List.nodup_cons] at hex
    cases h : List.lookup x.filename m with
    | some u =>
      simp only [mergePass, h, List.map_cons, Option.getD_some]
      rw [ih hex.2]
      congr 1
      apply List.map_congr_left
      intro y hy
      rw [lookup_jsDelete]
      intro he
      exact hex.1 (he ▸ List.mem_map_of_mem Rec.filename hy)
    | none =>
      simp only [mergePass, h, List.map_cons, Option.getD_none]
      rw [ih hex.2]

theorem mergePass_snd (ex : List (Rec α)) {m : JMap α} (hm : (m.map Prod.fst).Nodup) :
    (mergePass m ex).2 = m.filter (fun p => decide (p.1 ∉ ex.map Rec.filename)) := by
  induction ex generalizing m with
  | nil =>
    simp only [mergePass, List.map_nil]
    symm
    rw [List.filter_eq_self]
    intro p _
    simp
  | cons x xs ih =>
    cases h : List.lookup x.filename m with
    | none =>
      have hne := lookup_eq_none_forall h
      simp only [mergePass, h]
      rw [ih hm]
      apply List.filter_congr
      intro p hp
      simp [List.mem_cons, hne p hp]
    | some u =>
      have hdel : jsDelete m x.filename = m.filter (fun p => !(p.1 == x.filename)) :=
        jsDelete_eq_filter hm x.filename
      have hnd2 : ((jsDelete m x.filename).map Prod.fst).Nodup := by
        rw [hdel]
        exact hm.sublist ((List.filter_sublist m).map Prod.fst)
      simp only [mergePass, h]
      rw [ih hnd2, hdel, List.filter_filter]
      apply List.filter_congr
      intro p hp
      cases hpx : p.1 == x.filename with
      | true =>
        have : p.1 = x.filename := beq_iff_eq.mp hpx
        simp [this]
      | false =>
        have : p.1 ≠ x.filename := by
          rw [beq_eq_false_iff_ne] at hpx
          exact hpx
        simp [List.mem_cons, this]

theorem lookup_map_key (k : String) (inc : List (Rec α)) :
    List.lookup k (inc.map (fun r => (r.filename, r))) =
      inc.find? (fun r => k == r.filename) := by
  induction inc with
  | nil => rfl
  | cons a t ih =>
    simp only [List.map_cons, List.lookup_cons, List.find?]
    cases h : k == a.filename with
    | true => rfl
    | false => simpa using ih

theorem mergeData_eq_view {ex inc : List (Rec α)} (hex : (ex.map Rec.filename).Nodup)
    (hinc : (inc.map Rec.filename).Nodup) (hne : inc ≠ []) :
    mergeData ex inc = mergeView ex inc := by
  have hkeys : (inc.map (fun r => (r.filename, r))).map Prod.fst = inc.map Rec.filename := by
    rw [List.map_map]
    rfl
  have hmap : jsMapFromList (inc.map (fun r => (r.filename, r))) =
      inc.map (fun r => (r.filename, r)) :=
    jsMapFromList_eq_self (by rw [hkeys]; exact hinc)
  have hemp : inc.isEmpty = false := by
    cases inc with
    | nil => exact absurd rfl hne
    | cons a t => rfl
  simp only [mergeData, hemp, Bool.false_eq_true, if_false, hmap, mergeView]
  congr 1
  rw [mergePass_fst hex, mergePass_snd ex (by rw [hkeys]; exact hinc)]
  congr 1
  · apply List.map_congr_left
    intro x _
    rw [lookup_map_key]
    rfl
  · rw [List.filter_map, List.map_map]
    have hsnd : (Prod.snd ∘ fun r : Rec α => (r.filename, r)) = id := rfl
    rw [hsnd, List.map_id]
    rfl

/-! ## Lemmas: consequences for `mergeData` on distinct-key inputs -/

theorem map_filename_subst (ex inc : List (Rec α)) :
    (ex.map (subst inc)).map Rec.filename = ex.map Rec.filename := by
  rw [List.map_map]
  apply List.map_congr_left
  intro x _
  exact subst_filename inc x

theorem mergeData_map_filename {ex inc : List (Rec α)}
    (hex : (ex.map Rec.filename).Nodup) (hinc : (inc.map Rec.filename).Nodup) :
    (mergeData ex inc).map Rec.filename =
      ex.map Rec.filename ++ (newOnes ex inc).map Rec.filename := by
  by_cases hn : inc = []
  · subst hn
    simp [mergeData, newOnes]
  · rw [mergeData_eq_view hex hinc hn, mergeView, map_filename_enumSno, List.map_append,
      map_filename_subst]

theorem mergeData_keys_nodup {ex inc : List (Rec α)}
    (hex : (ex.map Rec.filename).Nodup) (hinc : (inc.map Rec.filename).Nodup) :
    ((mergeData ex inc).map Rec.filename).Nodup := by
  rw [mergeData_map_filename hex hinc, List.nodup_append]
  refine ⟨hex, hinc.sublist ((List.filter_sublist inc).map Rec.filename), ?_⟩
  intro k hk1 hk2
  rcases List.mem_map.mp hk2 with ⟨r, hr, rfl⟩
  have h2 := (List.mem_filter.mp hr).2
  simp only [decide_eq_true_eq] at h2
  exact h2 hk1

theorem mergeData_mem_keys {ex inc : List (Rec α)}
    (hex : (ex.map Rec.filename).Nodup) (hinc : (inc.map Rec.filename).Nodup) (k : String) :
    k ∈ (mergeData ex inc).map Rec.filename ↔
      k ∈ ex.map Rec.filename ∨ k ∈ inc.map Rec.filename := by
  rw [mergeData_map_filename hex hinc, List.mem_append]
  constructor
  · rintro (h | h)
    · exact Or.inl h
    · rcases List.mem_map.mp h with ⟨r, hr, rfl⟩
      exact Or.inr (List.mem_map_of_mem _ (List.mem_of_mem_filter hr))
  · rintro (h | h)
    · exact Or.inl h
    · by_cases hx : k ∈ ex.map Rec.filename
      · exact Or.inl hx
      · right
        rcases List.mem_map.mp h with ⟨r, hr, rfl⟩
        apply List.mem_map_of_mem
        rw [newOnes, List.mem_filter]
        exact ⟨hr, by simpa using hx⟩

theorem mergeData_length {ex inc : List (Rec α)}
    (hex : (ex.map Rec.filename).Nodup) (hinc : (inc.map Rec.filename).Nodup) :
    (mergeData ex inc).length = ex.length + (newOnes ex inc).length := by
  by_cases hn : inc = []
  · subst hn
    simp [mergeData, newOnes]
  · rw [mergeData_eq_view hex hinc hn, mergeView, length_enumSno, List.length_append,
      List.length_map]

theorem mergeData_sno {ex inc : List (Rec α)}
    (hex : (ex.map Rec.filename).Nodup) (hinc : (inc.map Rec.filename).Nodup)
    (hne : inc ≠ []) (i : Nat) (h : i < (mergeData ex inc).length) :
    (mergeData ex inc)[i].sno = some (i + 1) := by
  have hv := mergeData_eq_view hex hinc hne
  have hi : i < (ex.map (subst inc) ++ newOnes ex inc).length := by
    rw [← length_enumSno]
    have : (mergeView ex inc).length = (enumSno (ex.map (subst inc) ++ newOnes ex inc)).length :=
      rfl
    rw [← this, ← hv]
    exact h
  have h2 : i < (mergeView ex inc).length := by rw [← hv]; exact h
  have h3 : (mergeData ex inc)[i] = (mergeView ex inc)[i] := List.getElem_of_eq hv h
  rw [h3]
  have hbe : i < (enumSno (ex.map (subst inc) ++ newOnes ex inc)).length := h2
  have h4 : (mergeView ex inc)[i] =
      setSno ((ex.map (subst inc) ++ newOnes ex inc)[i]) (i + 1) :=
    getElem_enumSno _ i hi hbe
  rw [h4]
  rfl

theorem subst_fix_of_mem_view {ex inc : List (Rec α)} (hinc : (inc.map Rec.filename).Nodup)
    {b : Rec α} (hb : b ∈ ex.map (subst inc) ++ newOnes ex inc) :
    subst inc b = b := by
  rcases List.mem_append.mp hb with h | h
  · rcases List.mem_map.mp h with ⟨x, _, rfl⟩
    exact subst_subst inc x
  · exact subst_self_of_mem hinc (List.mem_of_mem_filter h)

theorem setSno_subst_setSno (inc : List (Rec α)) (b : Rec α) (n : Nat)
    (hfix : subst inc b = b) :
    setSno (subst inc (setSno b n)) n = setSno b n := by
  rw [subst_setSno]
  cases h : inc.find? (fun r => b.filename == r.filename) with
  | none => simp [setSno_setSno]
  | some u =>
    have hb : subst inc b = u := by unfold subst; rw [h]; rfl
    rw [Option.getD_some, ← hfix, hb]

theorem mergeData_idem {ex inc : List (Rec α)}
    (hex : (ex.map Rec.filename).Nodup) (hinc : (inc.map Rec.filename).Nodup) :
    mergeData (mergeData ex inc) inc = mergeData ex inc := by
  by_cases hn : inc = []
  · subst hn
    simp [mergeData]
  · have hv : mergeData ex inc = enumSno (ex.map (subst inc) ++ newOnes ex inc) :=
      mergeData_eq_view hex hinc hn
    have hMk : ((mergeData ex inc).map Rec.filename).Nodup := mergeData_keys_nodup hex hinc
    rw [mergeData_eq_view hMk hinc hn, mergeView]
    have hnew : newOnes (mergeData ex inc) inc = [] := by
      rw [newOnes, List.filter_eq_nil_iff]
      intro r hr
      simp only [decide_eq_true_eq, not_not]
      rw [mergeData_mem_keys hex hinc]
      exact Or.inr (List.mem_map_of_mem _ hr)
    rw [hnew, List.append_nil]
    rw [hv]
    apply List.ext_getElem
    · rw [length_enumSno, List.length_map, length_enumSno]
    · intro i h1 h2
      have hiB : i < (ex.map (subst inc) ++ newOnes ex inc).length := by
        rwa [length_enumSno] at h2
      have hiM : i < ((enumSno (ex.map (subst inc) ++ newOnes ex inc)).map (subst inc)).length := by
        rwa [List.length_map, length_enumSno]
      rw [getElem_enumSno _ i hiM h1, List.getElem_map, getElem_enumSno _ i hiB h2]
      exact setSno_subst_setSno inc _ (i + 1)
        (subst_fix_of_mem_view hinc (List.getElem_mem hiB))

/-! ## Claims about the merge algorithm -/

/-- C1, counterexample: the claim quantifies over *every* incoming batch,
but with an empty incoming batch `mergeData` returns the existing document
unchanged (`newData.length === 0` early return) without recomputing
`'S.No'`, so an output item's `'S.No'` need not equal its 1-based
position. -/
theorem c1_counterexample :
    mergeData [(⟨"a", some 5, 0⟩ : Rec Nat)] [] = [⟨"a", some 5, 0⟩] ∧
    (mergeData [(⟨"a", some 5, 0⟩ : Rec Nat)] []).map Rec.sno ≠ [some 1] :=
  ⟨rfl, by decide⟩

/-- C1 (amended to non-empty incoming batches): for an existing document and
a *non-empty* incoming batch, each with pairwise-distinct filename keys,
`mergeData existing incoming` has length `existing.length` plus the number
of incoming keys not present in `existing`; its keys are pairwise distinct
and are exactly the keys of `existing` or `incoming` (so every such key
appears exactly once); and every output item's `'S.No'` equals its 1-based
position. -/
theorem c1_merge_postconditions {ex inc : List (Rec α)}
    (hex : (ex.map Rec.filename).Nodup) (hinc : (inc.map Rec.filename).Nodup)
    (hne : inc ≠ []) :
    (mergeData ex inc).length = ex.length + (newOnes ex inc).length ∧
    ((mergeData ex inc).map Rec.filename).Nodup ∧
    (∀ k, k ∈ (mergeData ex inc).map Rec.filename ↔
      k ∈ ex.map Rec.filename ∨ k ∈ inc.map Rec.filename) ∧
    (∀ i (h : i < (mergeData ex inc).length), (mergeData ex inc)[i].sno = some (i + 1)) :=
  ⟨mergeData_length hex hinc, mergeData_keys_nodup hex hinc,
    mergeData_mem_keys hex hinc, fun i h => mergeData_sno hex hinc hne i h⟩

/-- Witness for C1 at a concrete input. -/
theorem c1_merge_postconditions_witness :
    (mergeData [(⟨"a", some 1, 1⟩ : Rec Nat)] [⟨"b", none, 9⟩]).length =
      [(⟨"a", some 1, 1⟩ : Rec Nat)].length +
        (newOnes [(⟨"a", some 1, 1⟩ : Rec Nat)] [⟨"b", none, 9⟩]).length ∧
    ((mergeData [(⟨"a", some 1, 1⟩ : Rec Nat)] [⟨"b", none, 9⟩]).map Rec.filename).Nodup ∧
    (∀ k, k ∈ (mergeData [(⟨"a", some 1, 1⟩ : Rec Nat)] [⟨"b", none, 9⟩]).map Rec.filename ↔
      k ∈ [(⟨"a", some 1, 1⟩ : Rec Nat)].map Rec.filename ∨
        k ∈ [(⟨"b", none, 9⟩ : Rec Nat)].map Rec.filename) ∧
    (∀ i (h : i < (mergeData [(⟨"a", some 1, 1⟩ : Rec Nat)] [⟨"b", none, 9⟩]).length),
      (mergeData [(⟨"a", some 1, 1⟩ : Rec Nat)] [⟨"b", none, 9⟩])[i].sno = some (i + 1)) :=
  c1_merge_postconditions (by decide) (by decide) (by decide)

/-- C2: on distinct-key inputs the output's key sequence is the keys of the
existing document in their original positions (an updated record stays at
the position of the record it replaced) followed by the genuinely new
incoming keys in their relative incoming order; and the spec's worked
example evaluates exactly as stated. -/
theorem c2_order_preservation {ex inc : List (Rec α)}
    (hex : (ex.map Rec.filename).Nodup) (hinc : (inc.map Rec.filename).Nodup) :
    (mergeData ex inc).map Rec.filename =
      ex.map Rec.filename ++ (newOnes ex inc).map Rec.filename ∧
    mergeData [(⟨"a", some 1, 1⟩ : Rec Nat), ⟨"b", some 2, 2⟩]
        [⟨"b", none, 9⟩, ⟨"c", none, 3⟩] =
      [⟨"a", some 1, 1⟩, ⟨"b", some 2, 9⟩, ⟨"c", some 3, 3⟩] :=
  ⟨mergeData_map_filename hex hinc, by decide⟩

/-- Witness for C2 at a concrete input. -/
theorem c2_order_preservation_witness :
    (mergeData [(⟨"a", some 1, 1⟩ : Rec Nat)] [⟨"b", none, 9⟩]).map Rec.filename =
      [(⟨"a", some 1, 1⟩ : Rec Nat)].map Rec.filename ++
        (newOnes [(⟨"a", some 1, 1⟩ : Rec Nat)] [⟨"b", none, 9⟩]).map Rec.filename ∧
    mergeData [(⟨"a", some 1, 1⟩ : Rec Nat), ⟨"b", some 2, 2⟩]
        [⟨"b", none, 9⟩, ⟨"c", none, 3⟩] =
      [⟨"a", some 1, 1⟩, ⟨"b", some 2, 9⟩, ⟨"c", some 3, 3⟩] :=
  c2_order_preservation (by decide) (by decide)

/-- C5: merging the same distinct-key batch twice is idempotent — the second
merge changes nothing, including order and the positional `'S.No'` fields
(the results are equal as lists of records). -/
theorem c5_merge_idempotent {ex inc : List (Rec α)}
    (hex : (ex.map Rec.filename).Nodup) (hinc : (inc.map Rec.filename).Nodup) :
    mergeData (mergeData ex inc) inc = mergeData ex inc :=
  mergeData_idem hex hinc

/-- Witness for C5 at a concrete input. -/
theorem c5_merge_idempotent_witness :
    mergeData (mergeData [(⟨"a", some 1, 1⟩ : Rec Nat), ⟨"b", some 2, 2⟩]
        [⟨"b", none, 9⟩, ⟨"c", none, 3⟩]) [⟨"b", none, 9⟩, ⟨"c", none, 3⟩] =
      mergeData [(⟨"a", some 1, 1⟩ : Rec Nat), ⟨"b", some 2, 2⟩]
        [⟨"b", none, 9⟩, ⟨"c", none, 3⟩] :=
  c5_merge_idempotent (by decide) (by decide)

/-! ## Lemmas: the retry loop -/

theorem mergeData_isEmpty_false {doc data : List (Rec α)} (hdoc : doc ≠ []) (hdata : data ≠ []) :
    (mergeData doc data).isEmpty = false := by
  have hde : data.isEmpty = false := by
    cases data with
    | nil => exact absurd rfl hdata
    | cons a t => rfl
  have hlen : doc.length ≤ (mergeData doc data).length := by
    simp only [mergeData, hde, Bool.false_eq_true, if_false, length_enumSno, List.length_append,
      mergePass_fst_length]
    omega
  cases hmd : mergeData doc data with
  | nil =>
    rw [hmd] at hlen
    cases doc with
    | nil => exact absurd rfl hdoc
    | cons a t => simp at hlen
  | cons a t => rfl

theorem readStage_commits (data : List (Rec α)) (isP : Bool) (r : ReadOracle α)
    (log : SaveLog α) :
    (readStage data isP r log).2.2.commits = log.commits := by
  unfold readStage
  split
  · split
    · split <;> rfl
    · rfl
  · rfl

theorem readStage_delays (data : List (Rec α)) (isP : Bool) (r : ReadOracle α)
    (log : SaveLog α) :
    (readStage data isP r log).2.2.delays = log.delays := by
  unfold readStage
  split
  · split
    · split <;> rfl
    · rfl
  · rfl

theorem saveGo_commits_decomp (data : List (Rec α)) (isP : Bool) (r : ReadOracle α)
    (p : PutOracle) (mr : Nat) :
    ∀ (fuel attempt : Nat) (log : SaveLog α), ∃ tl,
      (saveGo data isP r p mr attempt fuel log).2.commits = log.commits ++ tl ∧
      ((saveGo data isP r p mr attempt fuel log).1 = false →
        ∀ c ∈ tl, c.2.2 ≠ PutRes.committed) := by
  intro fuel
  induction fuel with
  | zero =>
    intro attempt log
    refine ⟨[], by simp [saveGo], ?_⟩
    intro _ c hc
    simp at hc
  | succ n ih =>
    intro attempt log
    rcases hrs : readStage data isP r log with ⟨d, e, l1⟩
    have hl1 : l1.commits = log.commits := by
      have := readStage_commits data isP r log
      rw [hrs] at this
      exact this
    simp only [saveGo, hrs]
    cases hde : d.isEmpty with
    | true =>
      refine ⟨[], by simp [hl1], ?_⟩
      intro _ c hc
      simp at hc
    | false =>
      simp only [Bool.false_eq_true, if_false]
      cases hp : p l1.commits.length with
      | committed =>
        refine ⟨[(d, e, PutRes.committed)], by simp [hl1], ?_⟩
        intro hfalse
        simp at hfalse
      | conflict =>
        by_cases hlt : attempt < mr
        · rcases ih (attempt + 1)
            { commits := l1.commits ++ [(d, e, PutRes.conflict)],
              reads := l1.reads,
              delays := l1.delays ++ [100 * attempt] } with ⟨tl, htl, hfl⟩
          refine ⟨(d, e, PutRes.conflict) :: tl, ?_, ?_⟩
          · simp only [if_pos hlt]
            rw [htl]
            simp [hl1]
          · intro hfalse c hc
            rcases List.mem_cons.mp hc with rfl | hctl
            · simp
            · exact hfl (by simpa [if_pos hlt] using hfalse) c hctl
        · refine ⟨[(d, e, PutRes.conflict)], by simp [if_neg hlt, hl1], ?_⟩
          intro _ c hc
          rcases List.mem_cons.mp hc with rfl | h
          · simp
          · simp at h
      | otherError =>
        refine ⟨[(d, e, PutRes.otherError)], by simp [hl1], ?_⟩
        intro _ c hc
        rcases List.mem_cons.mp hc with rfl | h
        · simp
        · simp at h

theorem readStage_reads_ge (data : List (Rec α)) (isP : Bool) (r : ReadOracle α)
    (log : SaveLog α) :
    log.reads ≤ (readStage data isP r log).2.2.reads := by
  unfold readStage
  split
  · split
    · split <;> simp
    · simp
  · simp

theorem applyCommits_of_no_commit {s : Store α}
    {cs : List (List (Rec α) × Option Nat × PutRes)}
    (h : ∀ c ∈ cs, c.2.2 ≠ PutRes.committed) :
    applyCommits s cs = s := by
  induction cs generalizing s with
  | nil => rfl
  | cons c t ih =>
    unfold applyCommits at *
    rw [List.foldl_cons]
    cases hc : c.2.2 with
    | committed => exact absurd hc (h c (by simp))
    | conflict => exact ih fun c' hc' => h c' (by simp [hc'])
    | otherError => exact ih fun c' hc' => h c' (by simp [hc'])

theorem saveGo_congr (data : List (Rec α)) (isP : Bool) (r1 r2 : ReadOracle α)
    (p1 p2 : PutOracle) (mr : Nat) :
    ∀ (fuel attempt : Nat) (log : SaveLog α),
      (∀ i, log.reads ≤ i → r1 i = r2 i) →
      (∀ i, log.commits.length ≤ i → p1 i = p2 i) →
      saveGo data isP r1 p1 mr attempt fuel log = saveGo data isP r2 p2 mr attempt fuel log := by
  intro fuel
  induction fuel with
  | zero => intro attempt log _ _; rfl
  | succ n ih =>
    intro attempt log hr hp
    have hrs : readStage data isP r1 log = readStage data isP r2 log := by
      unfold readStage
      rw [hr log.reads (Nat.le_refl _)]
    rcases hres : readStage data isP r2 log with ⟨d, e, l1⟩
    have hc : l1.commits = log.commits := by
      have h0 := readStage_commits data isP r2 log
      rw [hres] at h0
      exact h0
    have hreads : log.reads ≤ l1.reads := by
      have h0 := readStage_reads_ge data isP r2 log
      rw [hres] at h0
      exact h0
    simp only [saveGo, hrs, hres]
    cases hde : d.isEmpty with
    | true => rfl
    | false =>
      simp only [Bool.false_eq_true, if_false]
      rw [hp l1.commits.length (by rw [hc])]
      cases hp1 : p2 l1.commits.length with
      | committed => rfl
      | otherError => rfl
      | conflict =>
        by_cases hlt : attempt < mr
        · simp only [if_pos hlt]
          apply ih
          · intro i hi
            exact hr i (Nat.le_trans hreads hi)
          · intro i hi
            apply hp
            simp only [List.length_append, List.length_cons, List.length_nil, hc] at hi ⊢
            omega
        · simp only [if_neg hlt]

theorem saveData_head_commit (data : List (Rec α)) (isP : Bool) (r : ReadOracle α)
    (p : PutOracle) (n : Nat) (d : List (Rec α)) (e : Option Nat) (l1 : SaveLog α)
    (hstep : readStage data isP r ⟨0, [], []⟩ = (d, e, l1)) (hd : d.isEmpty = false) :
    (saveData data isP r p (n + 1)).2.commits.head? = some (d, e, p l1.commits.length) := by
  have hl1c : l1.commits = [] := by
    have h0 := readStage_commits data isP r ⟨0, [], []⟩
    rw [hstep] at h0
    exact h0
  simp only [saveData, saveGo, hstep, hd, Bool.false_eq_true, if_false]
  cases hp0 : p l1.commits.length with
  | committed => simp [hl1c]
  | otherError => simp [hl1c]
  | conflict =>
    by_cases hlt : 1 < n + 1
    · simp only [if_pos hlt]
      obtain ⟨tl, htl, _⟩ := saveGo_commits_decomp data isP r p (n + 1) n 2
        { reads := l1.reads, delays := l1.delays ++ [100], commits := [(d, e, PutRes.conflict)] }
      rw [hl1c]
      simp only [List.nil_append, Nat.mul_one]
      simp [htl]
    · simp only [if_neg hlt]
      simp [hl1c]

theorem saveData_read_congr (data : List (Rec α)) (isP : Bool) (r1 r2 : ReadOracle α)
    (p : PutOracle) (n : Nat) (d : List (Rec α)) (e : Option Nat) (l1 : SaveLog α)
    (hstep1 : readStage data isP r1 ⟨0, [], []⟩ = (d, e, l1))
    (hstep2 : readStage data isP r2 ⟨0, [], []⟩ = (d, e, l1))
    (hagree : ∀ i, l1.reads ≤ i → r1 i = r2 i) :
    saveData data isP r1 p (n + 1) = saveData data isP r2 p (n + 1) := by
  simp only [saveData, saveGo, hstep1, hstep2]
  cases hde : d.isEmpty with
  | true => rfl
  | false =>
    simp only [Bool.false_eq_true, if_false]
    cases hp0 : p l1.commits.length with
    | committed => rfl
    | otherError => rfl
    | conflict =>
      by_cases hlt : 1 < n + 1
      · simp only [if_pos hlt]
        apply saveGo_congr
        · intro i hi
          apply hagree
          simpa using hi
        · intro i _
          rfl
      · simp only [if_neg hlt]

/-! ## Claims about the retry loop and the HTTP boundary -/

/-- C3: a partial-update save against an existing non-empty document in
which every conditional commit fails with a generation-mismatch conflict
returns false after exactly `maxRetries = 3` attempts, with a fresh store
read before each of the 3 attempts, and backoff delays of `100 * attempt` ms
between consecutive attempts (`[100, 200]`). -/
theorem c3_exhausted_retries {data doc : List (Rec α)} (g : Nat → Option Nat)
    (hdata : data ≠ []) (hdoc : doc ≠ []) :
    saveData data true (fun i => some (doc, g i)) (fun _ => PutRes.conflict) 3 =
      (false,
        ⟨3, [100, 200],
          [(mergeData doc data, g 0, PutRes.conflict),
           (mergeData doc data, g 1, PutRes.conflict),
           (mergeData doc data, g 2, PutRes.conflict)]⟩) := by
  have hde : data.isEmpty = false := by
    cases data with
    | nil => exact absurd rfl hdata
    | cons a t => rfl
  have hdoce : doc.isEmpty = false := by
    cases doc with
    | nil => exact absurd rfl hdoc
    | cons a t => rfl
  have hme : (mergeData doc data).isEmpty = false := mergeData_isEmpty_false hdoc hdata
  simp [saveData, saveGo, readStage, hde, hdoce, hme]

/-- Witness for C3 at a concrete input. -/
theorem c3_exhausted_retries_witness :
    saveData [(⟨"a", none, 0⟩ : Rec Nat)] true
        (fun i => some ([⟨"b", some 1, 1⟩], some i)) (fun _ => PutRes.conflict) 3 =
      (false,
        ⟨3, [100, 200],
          [(mergeData [(⟨"b", some 1, 1⟩ : Rec Nat)] [⟨"a", none, 0⟩], some 0, PutRes.conflict),
           (mergeData [(⟨"b", some 1, 1⟩ : Rec Nat)] [⟨"a", none, 0⟩], some 1, PutRes.conflict),
           (mergeData [(⟨"b", some 1, 1⟩ : Rec Nat)] [⟨"a", none, 0⟩], some 2,
             PutRes.conflict)]⟩) :=
  c3_exhausted_retries (fun i => some i) (by decide) (by decide)

/-- C4: saving an empty record array fails without touching the store:
`saveData` returns false with zero reads and zero write attempts for every
retry bound, and the HTTP handler answers 400 with an untouched log for an
empty batch in either accepted body format. -/
theorem c4_empty_batch_guard (isP : Bool) (r : ReadOracle α) (p : PutOracle)
    (mr : Nat) (q : Option String) (pb : Bool) :
    saveData ([] : List (Rec α)) isP r p mr = (false, ⟨0, [], []⟩) ∧
    handler (ReqBody.arr ([] : List (Rec α))) q r p =
      (400, getDataFolder (saveDataset q), ⟨0, [], []⟩) ∧
    handler (ReqBody.obj pb ([] : List (Rec α))) q r p =
      (400, getDataFolder (saveDataset q), ⟨0, [], []⟩) := by
  refine ⟨?_, rfl, rfl⟩
  cases mr with
  | zero => rfl
  | succ n => simp [saveData, saveGo, readStage]

/-- C9: whenever `saveData` returns false — for any input, oracle behaviour
and retry bound — none of that call's write attempts committed, so replaying
the call's writes against any prior store state leaves it unchanged: a
failed save never overwrites committed data. -/
theorem c9_failed_save_preserves_store {data : List (Rec α)} {isP : Bool} {r : ReadOracle α}
    {p : PutOracle} {mr : Nat} (s0 : Store α)
    (hfail : (saveData data isP r p mr).1 = false) :
    (∀ c ∈ (saveData data isP r p mr).2.commits, c.2.2 ≠ PutRes.committed) ∧
    applyCommits s0 (saveData data isP r p mr).2.commits = s0 := by
  obtain ⟨tl, htl, hfl⟩ := saveGo_commits_decomp data isP r p mr mr 1 ⟨0, [], []⟩
  have hcommits : (saveData data isP r p mr).2.commits = tl := by
    simpa [saveData] using htl
  have hno : ∀ c ∈ (saveData data isP r p mr).2.commits, c.2.2 ≠ PutRes.committed := by
    rw [hcommits]
    exact hfl (by simpa [saveData] using hfail)
  exact ⟨hno, applyCommits_of_no_commit hno⟩

/-- Witness for C9 at a concrete input. -/
theorem c9_failed_save_preserves_store_witness :
    (∀ c ∈ (saveData [(⟨"a", none, 0⟩ : Rec Nat)] false (fun _ => none)
        (fun _ => PutRes.otherError) 3).2.commits, c.2.2 ≠ PutRes.committed) ∧
    applyCommits (some ([(⟨"b", some 1, 1⟩ : Rec Nat)], 7))
        (saveData [(⟨"a", none, 0⟩ : Rec Nat)] false (fun _ => none)
          (fun _ => PutRes.otherError) 3).2.commits =
      some ([(⟨"b", some 1, 1⟩ : Rec Nat)], 7) :=
  c9_failed_save_preserves_store (some ([⟨"b", some 1, 1⟩], 7)) (by decide)

/-- C10: when the stored document exists but is an empty array, a
partial-update save behaves exactly as if no document existed: the first
write attempt carries the incoming batch unmerged with no
`ifGenerationMatch` precondition (the generation check is skipped), and the
whole call is indistinguishable from a run whose first read found no
document at all. -/
theorem c10_empty_doc_like_missing {data : List (Rec α)} (g : Nat) (r1 r2 : ReadOracle α)
    (p : PutOracle) (hdata : data ≠ []) (h1 : r1 0 = some ([], some g)) (h2 : r2 0 = none)
    (hagree : ∀ i, 1 ≤ i → r1 i = r2 i) :
    (saveData data true r1 p 3).2.commits.head? = some (data, none, p 0) ∧
    saveData data true r1 p 3 = saveData data true r2 p 3 := by
  have hde : data.isEmpty = false := by
    cases data with
    | nil => exact absurd rfl hdata
    | cons a t => rfl
  have hstep1 : readStage data true r1 ⟨0, [], []⟩ = (data, none, ⟨1, [], []⟩) := by
    simp [readStage, hde, h1]
  have hstep2 : readStage data true r2 ⟨0, [], []⟩ = (data, none, ⟨1, [], []⟩) := by
    simp [readStage, hde, h2]
  constructor
  · have h0 := saveData_head_commit data true r1 p 2 data none ⟨1, [], []⟩ hstep1 hde
    simpa using h0
  · exact saveData_read_congr data true r1 r2 p 2 data none ⟨1, [], []⟩ hstep1 hstep2
      (fun i hi => hagree i (by simpa using hi))

/-- Witness for C10 at a concrete input. -/
theorem c10_empty_doc_like_missing_witness :
    (saveData [(⟨"a", none, 0⟩ : Rec Nat)] true (fun i => if i = 0 then some ([], some 7) else none)
        (fun _ => PutRes.committed) 3).2.commits.head? =
      some ([(⟨"a", none, 0⟩ : Rec Nat)], none, PutRes.committed) ∧
    saveData [(⟨"a", none, 0⟩ : Rec Nat)] true
        (fun i => if i = 0 then some ([], some 7) else none)
        (fun _ => PutRes.committed) 3 =
      saveData [(⟨"a", none, 0⟩ : Rec Nat)] true (fun _ => none)
        (fun _ => PutRes.committed) 3 :=
  c10_empty_doc_like_missing 7 _ _ _ (by decide) (by decide) (by decide)
    (fun i hi => by
      have hz : i ≠ 0 := by omega
      simp [hz])

/-- C6: the save handler coerces every dataset id other than `ptz` —
including `new_guntur` — to `existing` (and the load handler coerces the
same way), so a save request carrying `new_guntur` is merged into and
written at the `existing` partition's folder `analytics-data`, never at the
`new_guntur` partition's document; yet `getDataFolder` defines the distinct
folder `analytics-data-new-guntur` for that partition, and the excel-export
endpoint — the only one recognising `new_guntur` — reads that folder, so
the document it exports for `new_guntur` is never the one `new_guntur`
saves write. -/
theorem c6_dataset_coercion :
    saveDataset (some "new_guntur") = "existing" ∧
    loadDataset (some "new_guntur") = "existing" ∧
    getDataFolder (saveDataset (some "new_guntur")) = "analytics-data" ∧
    getDataFolder "new_guntur" = "analytics-data-new-guntur" ∧
    exportDataset (some "new_guntur") = "new_guntur" ∧
    getDataFolder (exportDataset (some "new_guntur")) = "analytics-data-new-guntur" ∧
    getDataFolder "ptz" = "analytics-data-ptz" ∧
    (∀ (body : ReqBody Nat) (r : ReadOracle Nat) (p : PutOracle),
      (handler body (some "new_guntur") r p).2.1 = "analytics-data") := by
  refine ⟨by decide, by decide, by decide, by decide, by decide, by decide, by decide, ?_⟩
  intro body r p
  unfold handler
  cases body <;> (dsimp only; split <;> rfl)

/-! ## Lemmas: the client coordinator -/

theorem mem_foldl_insertName (l acc : List String) (k : String) :
    k ∈ l.foldl insertName acc ↔ k ∈ acc ∨ k ∈ l := by
  induction l generalizing acc with
  | nil => simp
  | cons a t ih =>
    rw [List.foldl_cons, ih]
    unfold insertName
    by_cases h : acc.contains a
    · have ha : a ∈ acc := by simpa using h
      rw [if_pos h]
      simp only [List.mem_cons]
      constructor
      · rintro (h1 | h1)
        · exact Or.inl h1
        · exact Or.inr (Or.inr h1)
      · rintro (h1 | h1 | h1)
        · exact Or.inl h1
        · subst h1
          exact Or.inl ha
        · exact Or.inr h1
    · rw [if_neg h]
      simp only [List.mem_append, List.mem_cons, List.mem_singleton]
      tauto

theorem mem_coalesce (qs : List (List String)) (k : String) :
    k ∈ coalesce qs ↔ ∃ b ∈ qs, k ∈ b := by
  unfold coalesce
  rw [mem_foldl_insertName]
  simp [List.mem_flatten]

theorem traceNames_append (tr : List Ev) (e : Ev) :
    traceNames (tr ++ [e]) = traceNames tr ++ evNames e := by
  simp [traceNames]

theorem processStep_of_guard (s : CState) (h : s.isSaving = true ∨ s.saveQueue = []) :
    processStep s = s := by
  unfold processStep
  rcases h with h | h
  · rw [if_pos]
    simp [h]
  · rw [if_pos]
    simp [h]

theorem processStep_flush (s : CState) (h1 : s.isSaving = false) (h2 : s.saveQueue ≠ []) :
    processStep s =
      { saveQueue := [], saveTimeout := none, isSaving := true,
        inFlight := s.inFlight ++ [coalesce s.saveQueue],
        started := s.started ++ [coalesce s.saveQueue] } := by
  unfold processStep
  rw [if_neg]
  simp [h1, List.isEmpty_iff, h2]

theorem enqueueStep_eq (s : CState) (b : List String) (t : Nat) :
    enqueueStep s b t =
      if 10 ≤ ((s.saveQueue ++ [b]).map List.length).sum then
        processStep { s with saveQueue := s.saveQueue ++ [b], saveTimeout := none }
      else { s with saveQueue := s.saveQueue ++ [b], saveTimeout := some (t + 500) } :=
  rfl

theorem doneStep_eq_cons (s : CState) (x : List String) (rest : List (List String)) (t : Nat)
    (h : s.inFlight = x :: rest) :
    doneStep s t =
      if s.saveQueue.isEmpty then { s with isSaving := false, inFlight := rest }
      else { s with isSaving := false, inFlight := rest, saveTimeout := some (t + 500) } := by
  unfold doneStep
  rw [h]

theorem enqueueStep_of_isSaving (s : CState) (hs : s.isSaving = true) (b : List String)
    (t : Nat) :
    (enqueueStep s b t).inFlight = s.inFlight ∧
    (enqueueStep s b t).saveQueue = s.saveQueue ++ [b] := by
  rw [enqueueStep_eq]
  by_cases h : 10 ≤ ((s.saveQueue ++ [b]).map List.length).sum
  · rw [if_pos h,
      processStep_of_guard { s with saveQueue := s.saveQueue ++ [b], saveTimeout := none }
        (Or.inl hs)]
    exact ⟨rfl, rfl⟩
  · rw [if_neg h]
    exact ⟨rfl, rfl⟩

theorem clientInv {tr : List Ev} {s : CState} (h : Reach tr s) :
    s.inFlight.length ≤ 1 ∧
    (s.isSaving = true ↔ s.inFlight ≠ []) ∧
    (∀ k ∈ traceNames tr, (∃ b ∈ s.saveQueue, k ∈ b) ∨ ∃ b ∈ s.started, k ∈ b) ∧
    (s.saveQueue ≠ [] → s.isSaving = false → s.saveTimeout ≠ none) := by
  induction h with
  | init =>
    refine ⟨by simp [initClient], by simp [initClient], ?_, by simp [initClient]⟩
    intro k hk
    simp [traceNames] at hk
  | step hreach hstep ih =>
    rename_i tr0 s0 e s1
    obtain ⟨i1, i2, i3, i4⟩ := ih
    cases hstep with
    | enq b t =>
      rw [enqueueStep_eq]
      by_cases hth : 10 ≤ ((s0.saveQueue ++ [b]).map List.length).sum
      · rw [if_pos hth]
        by_cases hs : s0.isSaving = true
        · rw [processStep_of_guard
            { s0 with saveQueue := s0.saveQueue ++ [b], saveTimeout := none } (Or.inl hs)]
          refine ⟨i1, by simpa using i2, ?_, ?_⟩
          · intro k hk
            rw [traceNames_append, List.mem_append] at hk
            rcases hk with hk | hk
            · rcases i3 k hk with ⟨b', hb', hkb⟩ | h'
              · exact Or.inl ⟨b', List.mem_append_left _ hb', hkb⟩
              · exact Or.inr h'
            · exact Or.inl ⟨b, by simp, by simpa using hk⟩
          · intro _ h2
            have : s0.isSaving = false := h2
            rw [hs] at this
            cases this
        · have hs' : s0.isSaving = false := by
            cases hsv : s0.isSaving with
            | false => rfl
            | true => exact absurd hsv hs
          rw [processStep_flush
            { s0 with saveQueue := s0.saveQueue ++ [b], saveTimeout := none } hs' (by simp)]
          have hif : s0.inFlight = [] := by
            by_contra hne
            have hcon := i2.mpr hne
            rw [hs'] at hcon
            cases hcon
          refine ⟨by simp [hif], by simp, ?_, ?_⟩
          · intro k hk
            rw [traceNames_append, List.mem_append] at hk
            rcases hk with hk | hk
            · rcases i3 k hk with ⟨b', hb', hkb⟩ | ⟨b', hb', hkb⟩
              · exact Or.inr ⟨coalesce (s0.saveQueue ++ [b]), by simp,
                  (mem_coalesce _ _).mpr ⟨b', List.mem_append_left _ hb', hkb⟩⟩
              · exact Or.inr ⟨b', by simp [hb'], hkb⟩
            · exact Or.inr ⟨coalesce (s0.saveQueue ++ [b]), by simp,
                (mem_coalesce _ _).mpr ⟨b, by simp, by simpa using hk⟩⟩
          · intro h1 _
            exact absurd rfl h1
      · rw [if_neg hth]
        refine ⟨i1, by simpa using i2, ?_, ?_⟩
        · intro k hk
          rw [traceNames_append, List.mem_append] at hk
          rcases hk with hk | hk
          · rcases i3 k hk with ⟨b', hb', hkb⟩ | h'
            · exact Or.inl ⟨b', List.mem_append_left _ hb', hkb⟩
            · exact Or.inr h'
          · exact Or.inl ⟨b, by simp, by simpa using hk⟩
        · intro _ _
          simp
    | fire t hto =>
      unfold fireStep
      by_cases hguard : s0.isSaving = true ∨ s0.saveQueue = []
      · rw [processStep_of_guard { s0 with saveTimeout := none } hguard]
        refine ⟨i1, by simpa using i2, ?_, ?_⟩
        · intro k hk
          rw [traceNames_append] at hk
          simp only [evNames, List.append_nil] at hk
          rcases i3 k hk with ⟨b', hb', hkb⟩ | h'
          · exact Or.inl ⟨b', hb', hkb⟩
          · exact Or.inr h'
        · intro h1 h2
          rcases hguard with hg | hg
          · have : s0.isSaving = false := h2
            rw [hg] at this
            cases this
          · exact absurd hg h1
      · push_neg at hguard
        obtain ⟨hsne, hqne⟩ := hguard
        have hs' : s0.isSaving = false := by
          cases hsv : s0.isSaving with
          | false => rfl
          | true => exact absurd hsv hsne
        rw [processStep_flush { s0 with saveTimeout := none } hs' hqne]
        have hif : s0.inFlight = [] := by
          by_contra hne
          have hcon := i2.mpr hne
          rw [hs'] at hcon
          cases hcon
        refine ⟨by simp [hif], by simp, ?_, ?_⟩
        · intro k hk
          rw [traceNames_append] at hk
          simp only [evNames, List.append_nil] at hk
          rcases i3 k hk with ⟨b', hb', hkb⟩ | ⟨b', hb', hkb⟩
          · exact Or.inr ⟨coalesce s0.saveQueue, by simp, (mem_coalesce _ _).mpr ⟨b', hb', hkb⟩⟩
          · exact Or.inr ⟨b', by simp [hb'], hkb⟩
        · intro h1 _
          exact absurd rfl h1
    | done t hsv =>
      have hif : s0.inFlight ≠ [] := i2.mp hsv
      obtain ⟨x, rest, hxr⟩ := List.exists_cons_of_ne_nil hif
      have hrest : rest = [] := by
        rw [hxr] at i1
        simp only [List.length_cons] at i1
        have : rest.length = 0 := by omega
        exact List.length_eq_zero.mp this
      rw [doneStep_eq_cons s0 x rest t hxr, hrest]
      by_cases hq : s0.saveQueue.isEmpty
      · rw [if_pos hq]
        refine ⟨by simp, by simp, ?_, ?_⟩
        · intro k hk
          rw [traceNames_append] at hk
          simp only [evNames, List.append_nil] at hk
          rcases i3 k hk with ⟨b', hb', hkb⟩ | h'
          · exact Or.inl ⟨b', hb', hkb⟩
          · exact Or.inr h'
        · intro h1 _
          rw [List.isEmpty_iff] at hq
          exact absurd hq h1
      · rw [if_neg hq]
        refine ⟨by simp, by simp, ?_, ?_⟩
        · intro k hk
          rw [traceNames_append] at hk
          simp only [evNames, List.append_nil] at hk
          rcases i3 k hk with ⟨b', hb', hkb⟩ | h'
          · exact Or.inl ⟨b', hb', hkb⟩
          · exact Or.inr h'
        · intro _ _
          simp

/-! ## Claims about the client coordinator -/

/-- C7, counterexample: the debounce timer is cleared and re-armed on every
enqueue, so after an enqueue at t=0 and another at t=300 the flush is
scheduled for t=800, not a fixed 500 ms after the *first* enqueue (t=500),
and no flush has run; moreover a single enqueue of exactly 10 records — not
"more than" 10 — already flushes immediately. -/
theorem c7_counterexample :
    (enqueueStep (enqueueStep initClient ["a"] 0) ["b"] 300).saveTimeout = some 800 ∧
    (enqueueStep (enqueueStep initClient ["a"] 0) ["b"] 300).saveTimeout ≠ some 500 ∧
    (enqueueStep (enqueueStep initClient ["a"] 0) ["b"] 300).isSaving = false ∧
    (enqueueStep (enqueueStep initClient ["a"] 0) ["b"] 300).inFlight = [] ∧
    (enqueueStep initClient
      ["i1", "i2", "i3", "i4", "i5", "i6", "i7", "i8", "i9", "i10"] 0).isSaving = true := by
  decide

/-- C7 (amended): each enqueue clears any pending timer and re-arms the
debounce for 500 ms after *that* (the most recent) enqueue, provided the
queued-record total stays below the high-water mark of 10; once the total
reaches 10 or more, the flush runs immediately (synchronously) when no flush
is in flight, and while one is in flight the records only accumulate with
the timer cleared. -/
theorem c7_debounce (s : CState) (b : List String) (t : Nat) :
    (((s.saveQueue ++ [b]).map List.length).sum < 10 →
      (enqueueStep s b t).saveTimeout = some (t + 500)) ∧
    (10 ≤ ((s.saveQueue ++ [b]).map List.length).sum → s.isSaving = false →
      (enqueueStep s b t).isSaving = true ∧ (enqueueStep s b t).saveQueue = [] ∧
      (enqueueStep s b t).inFlight = s.inFlight ++ [coalesce (s.saveQueue ++ [b])]) ∧
    (10 ≤ ((s.saveQueue ++ [b]).map List.length).sum → s.isSaving = true →
      (enqueueStep s b t).saveTimeout = none ∧
      (enqueueStep s b t).saveQueue = s.saveQueue ++ [b]) := by
  refine ⟨?_, ?_, ?_⟩
  · intro hlt
    rw [enqueueStep_eq, if_neg (by omega)]
  · intro hge hs
    rw [enqueueStep_eq, if_pos hge,
      processStep_flush { s with saveQueue := s.saveQueue ++ [b], saveTimeout := none } hs
        (by simp)]
    exact ⟨rfl, rfl, rfl⟩
  · intro hge hs
    rw [enqueueStep_eq, if_pos hge,
      processStep_of_guard { s with saveQueue := s.saveQueue ++ [b], saveTimeout := none }
        (Or.inl hs)]
    exact ⟨rfl, rfl⟩

/-- Witness for C7's amended statement at concrete inputs. -/
theorem c7_debounce_witness :
    (enqueueStep initClient ["a"] 0).saveTimeout = some (0 + 500) ∧
    (enqueueStep initClient
        ["i1", "i2", "i3", "i4", "i5", "i6", "i7", "i8", "i9", "i10"] 5).isSaving = true ∧
    (enqueueStep (⟨[["a1", "a2", "a3", "a4", "a5", "a6", "a7", "a8", "a9"]], none, true,
        [["f"]], [["f"]]⟩ : CState) ["b"] 9).saveTimeout = none :=
  ⟨(c7_debounce initClient ["a"] 0).1 (by decide),
   ((c7_debounce initClient ["i1", "i2", "i3", "i4", "i5", "i6", "i7", "i8", "i9", "i10"] 5).2.1
      (by decide) (by decide)).1,
   ((c7_debounce (⟨[["a1", "a2", "a3", "a4", "a5", "a6", "a7", "a8", "a9"]], none, true,
      [["f"]], [["f"]]⟩ : CState) ["b"] 9).2.2 (by decide) (by decide)).1⟩

/-- C8: in every reachable coordinator state, at most one network flush is
outstanding (and the `isSaving` flag tracks exactly that); every filename
ever enqueued is still in the queue or was sent in some flush; a non-empty
queue with no flush in flight always has a timer armed; enqueues made while
a flush is in flight leave the outstanding flush untouched and only grow the
fresh queue; and when the in-flight flush completes with a non-empty queue,
a debounced flush is re-armed for 500 ms later. -/
theorem c8_single_flight {tr : List Ev} {s : CState} (h : Reach tr s) :
    s.inFlight.length ≤ 1 ∧
    (s.isSaving = true ↔ s.inFlight ≠ []) ∧
    (∀ k ∈ traceNames tr, (∃ b ∈ s.saveQueue, k ∈ b) ∨ ∃ b ∈ s.started, k ∈ b) ∧
    (s.saveQueue ≠ [] → s.isSaving = false → s.saveTimeout ≠ none) ∧
    (s.isSaving = true → ∀ (b : List String) (t : Nat),
      (enqueueStep s b t).inFlight = s.inFlight ∧
      (enqueueStep s b t).saveQueue = s.saveQueue ++ [b]) ∧
    (s.isSaving = true → ∀ t : Nat, s.saveQueue ≠ [] →
      (doneStep s t).saveTimeout = some (t + 500)) := by
  obtain ⟨i1, i2, i3, i4⟩ := clientInv h
  refine ⟨i1, i2, i3, i4, ?_, ?_⟩
  · intro hs b t
    exact enqueueStep_of_isSaving s hs b t
  · intro hs t hq
    obtain ⟨x, rest, hxr⟩ := List.exists_cons_of_ne_nil (i2.mp hs)
    rw [doneStep_eq_cons s x rest t hxr, if_neg (by simpa [List.isEmpty_iff] using hq)]

/-- Witness for C8 on a concrete reachable state. -/
theorem c8_single_flight_witness :
    (enqueueStep initClient ["a"] 0).inFlight.length ≤ 1 ∧
    ((enqueueStep initClient ["a"] 0).isSaving = true ↔
      (enqueueStep initClient ["a"] 0).inFlight ≠ []) ∧
    (∀ k ∈ traceNames [Ev.enq ["a"] 0],
      (∃ b ∈ (enqueueStep initClient ["a"] 0).saveQueue, k ∈ b) ∨
        ∃ b ∈ (enqueueStep initClient ["a"] 0).started, k ∈ b) ∧
    ((enqueueStep initClient ["a"] 0).saveQueue ≠ [] →
      (enqueueStep initClient ["a"] 0).isSaving = false →
      (enqueueStep initClient ["a"] 0).saveTimeout ≠ none) ∧
    ((enqueueStep initClient ["a"] 0).isSaving = true → ∀ (b : List String) (t : Nat),
      (enqueueStep (enqueueStep initClient ["a"] 0) b t).inFlight =
        (enqueueStep initClient ["a"] 0).inFlight ∧
      (enqueueStep (enqueueStep initClient ["a"] 0) b t).saveQueue =
        (enqueueStep initClient ["a"] 0).saveQueue ++ [b]) ∧
    ((enqueueStep initClient ["a"] 0).isSaving = true → ∀ t : Nat,
      (enqueueStep initClient ["a"] 0).saveQueue ≠ [] →
      (doneStep (enqueueStep initClient ["a"] 0) t).saveTimeout = some (t + 500)) :=
  c8_single_flight
    (Reach.step Reach.init (ClientStep.enq initClient ["a"] 0))

end CctvLabel
